import Mathlib

/-!
Verification development for the tinygp tutorial repository.

The repository consists of tutorial notebooks that exercise the quasiseparable
(celerite-style) Gaussian-process solver of the external tinygp library.  The
solver itself is not part of the repository sources, so its data model and
operations are modelled here from the specification (spec.md, sections 3-7);
the code that is present in the repository (the `GreatCircleDistance` metric,
the `build_gp`/`loss` wiring and the kernel-scaling assertion in the
notebooks) is embedded directly from those sources.

All numeric computation is modelled over the real numbers; the floating-point
tolerance statements of the spec become exact equalities over ℝ.  The control
flow of the error-reporting pipeline (sortedness check, shape check,
non-positive pivots) is modelled executably over ℚ so that concrete runs can
be evaluated inside proofs.
-/

open Matrix

namespace TinyGP

/-! ## Factorization engine (spec 3, 4.2): the L·D·Lᵀ contract

Modelled from the spec: the factorization engine of the quasiseparable solver
is absent from src/; per spec 4.2 its output is, for each position, a pivot
value `d i` and a unit lower (block-bidiagonal-structured) factor `L`, such
that the original matrix equals `L * diagonal d * Lᵀ`. -/

/-- Modelled from the spec: the output of the factorization engine — a unit
lower-triangular factor `L` and the diagonal of pivots `d` (spec 4.2). -/
structure Factorization (n : ℕ) where
  L : Matrix (Fin n) (Fin n) ℝ
  d : Fin n → ℝ

/-- The factor `L` is unit lower triangular: zero above the diagonal and
ones on the diagonal (spec 4.2: "a unit lower ... L"). -/
def Factorization.UnitLower {n : ℕ} (F : Factorization n) : Prop :=
  (∀ i j : Fin n, i < j → F.L i j = 0) ∧ (∀ i : Fin n, F.L i i = 1)

/-- Modelled from the spec: the factorization contract of spec 4.2 — the
original (dense, implicitly represented) covariance matrix `K` equals
`L * D * Lᵀ` with `L` unit lower triangular and `D` the pivot diagonal. -/
def Factorization.Represents {n : ℕ} (F : Factorization n)
    (K : Matrix (Fin n) (Fin n) ℝ) : Prop :=
  F.UnitLower ∧ K = F.L * Matrix.diagonal F.d * F.Lᵀ

/-- Modelled from the spec: `log_determinant()` of the solve/apply engine is
the sum of logs of the diagonal pivots D (spec 4.3). -/
noncomputable def Factorization.logDeterminant {n : ℕ} (F : Factorization n) : ℝ :=
  ∑ i, Real.log (F.d i)

/-- Modelled from the spec: `solve(b)` of the solve/apply engine — forward
substitution with `L`, diagonal scaling by `D`, back substitution with `Lᵀ`
(spec 4.3), written contract-level as application of the three inverses. -/
noncomputable def Factorization.solve {n : ℕ} (F : Factorization n)
    (b : Fin n → ℝ) : Fin n → ℝ :=
  (F.Lᵀ)⁻¹ *ᵥ ((Matrix.diagonal F.d)⁻¹ *ᵥ (F.L⁻¹ *ᵥ b))

/-- Modelled from the spec: `apply(x)` computes (original matrix)·x using the
unfactored structure (spec 4.3); at the dense contract level this is
multiplication by the represented matrix `K`. -/
def applyMatrix {n : ℕ} (K : Matrix (Fin n) (Fin n) ℝ) (x : Fin n → ℝ) : Fin n → ℝ :=
  K *ᵥ x

/-- Modelled from the spec: the inverse-square-root apply used for
normalization (spec 4.3): the whitened residual `D^(-1/2) · L⁻¹ · y`. -/
noncomputable def Factorization.whitened {n : ℕ} (F : Factorization n)
    (y : Fin n → ℝ) : Fin n → ℝ :=
  fun i => (F.L⁻¹ *ᵥ y) i / Real.sqrt (F.d i)

/-- Modelled from the spec: the structured-path Gaussian log-likelihood, as
the conditioning layer computes it through the factorization's triangular
factors (spec 4.3, 4.5): minus half the squared norm of the whitened
residual, minus half the log-determinant, minus the `2π` normalization. -/
noncomputable def Factorization.logProbability {n : ℕ} (F : Factorization n)
    (y : Fin n → ℝ) : ℝ :=
  -(1/2) * (∑ i, (F.whitened y i)^2) - (1/2) * F.logDeterminant
    - (1/2) * (n : ℝ) * Real.log (2 * Real.pi)

/-- The naive dense reference construction, following the spec's words
(spec 8): the Gaussian log-likelihood computed from the explicit dense
covariance matrix via its inverse and determinant. -/
noncomputable def denseLogLikelihood {n : ℕ} (K : Matrix (Fin n) (Fin n) ℝ)
    (y : Fin n → ℝ) : ℝ :=
  -(1/2) * (y ⬝ᵥ (K⁻¹ *ᵥ y) + Real.log K.det + (n : ℝ) * Real.log (2 * Real.pi))

/-! ### Helper lemmas about the factorization contract -/

lemma Factorization.det_L {n : ℕ} (F : Factorization n) (h : F.UnitLower) :
    F.L.det = 1 := by
  have ht : F.L.BlockTriangular OrderDual.toDual := by
    intro i j hij
    exact h.1 i j hij
  rw [Matrix.det_of_lowerTriangular F.L ht]
  simp [h.2]

lemma Factorization.isUnit_det_L {n : ℕ} (F : Factorization n) (h : F.UnitLower) :
    IsUnit F.L.det := by
  rw [F.det_L h]; exact isUnit_one

lemma Factorization.isUnit_det_Lt {n : ℕ} (F : Factorization n) (h : F.UnitLower) :
    IsUnit (F.Lᵀ).det := by
  rw [Matrix.det_transpose]; exact F.isUnit_det_L h

lemma Factorization.isUnit_det_D {n : ℕ} (F : Factorization n)
    (hd : ∀ i, F.d i ≠ 0) : IsUnit (Matrix.diagonal F.d).det := by
  rw [Matrix.det_diagonal]
  exact isUnit_iff_ne_zero.mpr (Finset.prod_ne_zero_iff.mpr fun i _ => hd i)

lemma Factorization.det_K {n : ℕ} (F : Factorization n)
    (K : Matrix (Fin n) (Fin n) ℝ) (h : F.Represents K) :
    K.det = ∏ i, F.d i := by
  rw [h.2, Matrix.det_mul, Matrix.det_mul, Matrix.det_transpose,
    F.det_L h.1, Matrix.det_diagonal]
  ring

/-- On a valid (positive-pivot) factorization, `solve` applies the inverse of
the represented matrix. -/
lemma Factorization.inv_mulVec_eq_solve {n : ℕ} (F : Factorization n)
    (K : Matrix (Fin n) (Fin n) ℝ) (h : F.Represents K)
    (b : Fin n → ℝ) : K⁻¹ *ᵥ b = F.solve b := by
  rw [h.2, Matrix.mul_inv_rev, Matrix.mul_inv_rev]
  simp only [Factorization.solve, Matrix.mulVec_mulVec, Matrix.mul_assoc]

/-- The quadratic form through the factorization: the squared norm of the
whitened residual equals `y ⬝ᵥ solve y`. -/
lemma Factorization.sum_whitened_sq {n : ℕ} (F : Factorization n)
    (hpos : ∀ i, 0 < F.d i) (y : Fin n → ℝ) :
    ∑ i, (F.whitened y i)^2 = y ⬝ᵥ F.solve y := by
  have hinv : (Matrix.diagonal F.d)⁻¹ = Matrix.diagonal (fun i => (F.d i)⁻¹) := by
    apply Matrix.inv_eq_right_inv
    rw [Matrix.diagonal_mul_diagonal]
    have hone : (fun i => F.d i * (F.d i)⁻¹) = fun _ : Fin n => (1:ℝ) :=
      funext fun i => mul_inv_cancel₀ (ne_of_gt (hpos i))
    rw [hone, Matrix.diagonal_one]
  have hz : y ⬝ᵥ F.solve y =
      (F.L⁻¹ *ᵥ y) ⬝ᵥ ((Matrix.diagonal F.d)⁻¹ *ᵥ (F.L⁻¹ *ᵥ y)) := by
    rw [Factorization.solve, ← Matrix.transpose_nonsing_inv,
      Matrix.dotProduct_mulVec, Matrix.vecMul_transpose]
  rw [hz, hinv]
  rw [Finset.sum_congr rfl (fun i _ => by
    have h1 : Real.sqrt (F.d i) ^ 2 = F.d i := Real.sq_sqrt (le_of_lt (hpos i))
    have h2 : (F.whitened y i)^2 = ((F.L⁻¹ *ᵥ y) i)^2 * (F.d i)⁻¹ := by
      rw [Factorization.whitened, div_pow, h1, div_eq_mul_inv]
    exact h2)]
  rw [Matrix.dotProduct]
  refine Finset.sum_congr rfl fun i _ => ?_
  rw [Matrix.mulVec_diagonal]
  ring

/-! ### Concrete one-point system used to instantiate the contract theorems -/

/-- A concrete one-point factorization: identity factor, pivot 2. -/
noncomputable def Fone : Factorization 1 := ⟨1, fun _ => 2⟩

/-- The dense matrix represented by `Fone`. -/
noncomputable def Kone : Matrix (Fin 1) (Fin 1) ℝ := Matrix.diagonal (fun _ => 2)

/-- Concrete observation vector for the one-point system. -/
noncomputable def yone : Fin 1 → ℝ := fun _ => 3

lemma Fone_represents : Fone.Represents Kone := by
  refine ⟨⟨fun i j hij => ?_, fun i => ?_⟩, ?_⟩
  · exact absurd (Subsingleton.elim i j ▸ hij) (lt_irrefl j)
  · simp [Fone, Matrix.one_apply]
  · simp [Fone, Kone]

lemma Fone_pivot_pos : ∀ i, 0 < Fone.d i := fun _ => by norm_num [Fone]

/-! ## Claim theorems C1, C2, C4 -/

/-- Claim C1: for every valid system (factorization contract satisfied,
positive pivots), the log-determinant and the log-likelihood computed through
the structured quasiseparable path equal the values computed from the
explicit dense covariance matrix via the naive reference construction.  Over
ℝ the equality is exact, which implies the spec's 1e-6 relative-tolerance
statement for the 46-point end-to-end scenario. -/
theorem structured_path_matches_dense_reference {n : ℕ} (F : Factorization n)
    (K : Matrix (Fin n) (Fin n) ℝ) (y : Fin n → ℝ)
    (hrep : F.Represents K) (hpos : ∀ i, 0 < F.d i) :
    F.logDeterminant = Real.log K.det ∧
      F.logProbability y = denseLogLikelihood K y := by
  have hlogdet : F.logDeterminant = Real.log K.det := by
    rw [Factorization.logDeterminant, F.det_K K hrep,
      Real.log_prod _ _ (fun i _ => ne_of_gt (hpos i))]
  refine ⟨hlogdet, ?_⟩
  rw [Factorization.logProbability, denseLogLikelihood,
    F.sum_whitened_sq hpos y, F.inv_mulVec_eq_solve K hrep, hlogdet]
  ring

/-- Witness for C1 at the concrete one-point system. -/
theorem structured_path_matches_dense_reference_check :
    Fone.logDeterminant = Real.log Kone.det ∧
      Fone.logProbability yone = denseLogLikelihood Kone yone :=
  structured_path_matches_dense_reference Fone Kone yone Fone_represents Fone_pivot_pos

/-- Claim C2: for every system satisfying the factorization contract with
nonzero pivots and every vector `b`, applying the (unfactored) matrix to the
result of `solve` is the identity: `apply (solve b) = b`. -/
theorem apply_solve_is_identity {n : ℕ} (F : Factorization n)
    (K : Matrix (Fin n) (Fin n) ℝ) (b : Fin n → ℝ)
    (hrep : F.Represents K) (hd : ∀ i, F.d i ≠ 0) :
    applyMatrix K (F.solve b) = b := by
  have h1 : F.Lᵀ * (F.Lᵀ)⁻¹ = 1 := Matrix.mul_nonsing_inv _ (F.isUnit_det_Lt hrep.1)
  have h2 : Matrix.diagonal F.d * (Matrix.diagonal F.d)⁻¹ = 1 :=
    Matrix.mul_nonsing_inv _ (F.isUnit_det_D hd)
  have h3 : F.L * F.L⁻¹ = 1 := Matrix.mul_nonsing_inv _ (F.isUnit_det_L hrep.1)
  rw [applyMatrix, Factorization.solve, hrep.2]
  simp only [Matrix.mulVec_mulVec]
  have hkey : F.L * Matrix.diagonal F.d * F.Lᵀ *
      ((F.Lᵀ)⁻¹ * ((Matrix.diagonal F.d)⁻¹ * F.L⁻¹)) = 1 := by
    rw [← Matrix.mul_assoc (F.L * Matrix.diagonal F.d * F.Lᵀ) (F.Lᵀ)⁻¹ _,
      Matrix.mul_assoc (F.L * Matrix.diagonal F.d) F.Lᵀ (F.Lᵀ)⁻¹, h1, Matrix.mul_one,
      ← Matrix.mul_assoc (F.L * Matrix.diagonal F.d) (Matrix.diagonal F.d)⁻¹ F.L⁻¹,
      Matrix.mul_assoc F.L (Matrix.diagonal F.d) (Matrix.diagonal F.d)⁻¹, h2,
      Matrix.mul_one, h3]
  rw [hkey, Matrix.one_mulVec]

/-- Witness for C2 at the concrete one-point system. -/
theorem apply_solve_is_identity_check : applyMatrix Kone (Fone.solve yone) = yone :=
  apply_solve_is_identity Fone Kone yone Fone_represents
    (fun i => ne_of_gt (Fone_pivot_pos i))

/-- Claim C4: for every factorization with positive pivots and observed
values `y` of length `N`, the conditioning layer's log-likelihood equals
`-0.5 * (yᵗ·solve(y) + log_determinant() + N·log(2π))`, with `solve` and
`log_determinant` the solve/apply engine operations on that factorization. -/
theorem log_probability_contract {n : ℕ} (F : Factorization n) (y : Fin n → ℝ)
    (hpos : ∀ i, 0 < F.d i) :
    F.logProbability y =
      -(1/2) * (y ⬝ᵥ F.solve y + F.logDeterminant + (n : ℝ) * Real.log (2 * Real.pi)) := by
  rw [Factorization.logProbability, F.sum_whitened_sq hpos y]
  ring

/-- Witness for C4 at the concrete one-point system. -/
theorem log_probability_contract_check :
    Fone.logProbability yone =
      -(1/2) * (yone ⬝ᵥ Fone.solve yone + Fone.logDeterminant
        + (1 : ℝ) * Real.log (2 * Real.pi)) := by
  have h := log_probability_contract Fone yone Fone_pivot_pos
  simpa using h

/-! ## Kernel composition layer (spec 3, 4.1, 4.4)

Modelled from the spec: the quasiseparable kernel terms of
`tinygp.kernels.quasisep` are absent from src/; per spec 3 and 4.1 a term is
a tuple of rank-r factors (left factor, right factor, propagation matrix,
diagonal contribution), the implied covariance entry at (i,j) for i > j is a
bilinear form of the left factor at i, an accumulated product of propagation
matrices between j and i, and the right factor at j, and composition stacks
blocks for sums (rank adds) and tensor-combines them for products (rank
multiplies). -/

open Kronecker

/-- Modelled from the spec: a quasiseparable term (spec 3) — left factor `p`,
right factor `q`, per-position propagation matrix `A`, and diagonal `d`; the
rank-r index is an arbitrary finite type `ι`. -/
structure QSTerm (n : ℕ) (ι : Type) where
  p : Fin n → ι → ℝ
  q : Fin n → ι → ℝ
  A : Fin n → Matrix ι ι ℝ
  d : Fin n → ℝ

/-- The positions over which propagation matrices accumulate between column
`j` and row `i` (spec 4.1). -/
def segment {n : ℕ} (j i : Fin n) : List (Fin n) :=
  (List.finRange n).filter fun k => j < k ∧ k ≤ i

/-- The accumulated product of propagation matrices along a list of
positions (spec 4.1). -/
def QSTerm.prop {n : ℕ} {ι : Type} [Fintype ι] [DecidableEq ι]
    (t : QSTerm n ι) (l : List (Fin n)) : Matrix ι ι ℝ :=
  (l.map t.A).prod

/-- The below-diagonal covariance entry: bilinear form of the left factor at
`i`, the accumulated propagation between `j` and `i`, and the right factor
at `j` (spec 4.1). -/
def QSTerm.offDiag {n : ℕ} {ι : Type} [Fintype ι] [DecidableEq ι]
    (t : QSTerm n ι) (i j : Fin n) : ℝ :=
  t.p i ⬝ᵥ (t.prop (segment j i) *ᵥ t.q j)

/-- The pointwise covariance value implied by the structured representation:
the diagonal term on the diagonal, the bilinear form below it, extended
symmetrically above it (spec 4.1). -/
def QSTerm.cov {n : ℕ} {ι : Type} [Fintype ι] [DecidableEq ι]
    (t : QSTerm n ι) (i j : Fin n) : ℝ :=
  if i = j then t.d i else if j < i then t.offDiag i j else t.offDiag j i

/-- Additive composition of two quasiseparable terms: rank blocks stack,
ranks add (spec 3 "Sum"). -/
def QSTerm.add {n : ℕ} {ι κ : Type} (t₁ : QSTerm n ι) (t₂ : QSTerm n κ) :
    QSTerm n (ι ⊕ κ) where
  p i := Sum.elim (t₁.p i) (t₂.p i)
  q i := Sum.elim (t₁.q i) (t₂.q i)
  A i := Matrix.fromBlocks (t₁.A i) 0 0 (t₂.A i)
  d i := t₁.d i + t₂.d i

/-- Multiplicative composition of two quasiseparable terms: blocks
tensor-combine, ranks multiply (spec 3 "Product"). -/
def QSTerm.mul {n : ℕ} {ι κ : Type} (t₁ : QSTerm n ι) (t₂ : QSTerm n κ) :
    QSTerm n (ι × κ) where
  p i := fun ab => t₁.p i ab.1 * t₂.p i ab.2
  q i := fun ab => t₁.q i ab.1 * t₂.q i ab.2
  A i := t₁.A i ⊗ₖ t₂.A i
  d i := t₁.d i * t₂.d i

lemma QSTerm.prop_add {n : ℕ} {ι κ : Type} [Fintype ι] [DecidableEq ι]
    [Fintype κ] [DecidableEq κ] (t₁ : QSTerm n ι) (t₂ : QSTerm n κ)
    (l : List (Fin n)) :
    (t₁.add t₂).prop l = Matrix.fromBlocks (t₁.prop l) 0 0 (t₂.prop l) := by
  induction l with
  | nil => simp [QSTerm.prop, Matrix.fromBlocks_one]
  | cons a l ih =>
      simp only [QSTerm.prop, List.map_cons, List.prod_cons] at ih ⊢
      rw [ih]
      show Matrix.fromBlocks (t₁.A a) 0 0 (t₂.A a) * _ = _
      rw [Matrix.fromBlocks_multiply]
      simp

lemma QSTerm.prop_mul {n : ℕ} {ι κ : Type} [Fintype ι] [DecidableEq ι]
    [Fintype κ] [DecidableEq κ] (t₁ : QSTerm n ι) (t₂ : QSTerm n κ)
    (l : List (Fin n)) :
    (t₁.mul t₂).prop l = (t₁.prop l) ⊗ₖ (t₂.prop l) := by
  induction l with
  | nil =>
      simp only [QSTerm.prop, List.map_nil, List.prod_nil]
      exact (Matrix.one_kronecker_one).symm
  | cons a l ih =>
      simp only [QSTerm.prop, List.map_cons, List.prod_cons] at ih ⊢
      rw [ih]
      show (t₁.A a) ⊗ₖ (t₂.A a) * _ = _
      rw [← Matrix.mul_kronecker_mul]

lemma QSTerm.offDiag_add {n : ℕ} {ι κ : Type} [Fintype ι] [DecidableEq ι]
    [Fintype κ] [DecidableEq κ] (t₁ : QSTerm n ι) (t₂ : QSTerm n κ)
    (i j : Fin n) :
    (t₁.add t₂).offDiag i j = t₁.offDiag i j + t₂.offDiag i j := by
  show Sum.elim (t₁.p i) (t₂.p i) ⬝ᵥ
      ((t₁.add t₂).prop (segment j i) *ᵥ Sum.elim (t₁.q j) (t₂.q j)) = _
  rw [QSTerm.prop_add, Matrix.fromBlocks_mulVec]
  simp [Matrix.sum_elim_dotProduct_sum_elim, QSTerm.offDiag]

/-- Bilinear form of a Kronecker product against tensor-product vectors
splits as the product of the two bilinear forms. -/
lemma kron_bilinear {ι κ : Type} [Fintype ι] [Fintype κ]
    (p₁ q₁ : ι → ℝ) (p₂ q₂ : κ → ℝ) (M : Matrix ι ι ℝ) (N : Matrix κ κ ℝ) :
    (fun ab : ι × κ => p₁ ab.1 * p₂ ab.2) ⬝ᵥ
        ((M ⊗ₖ N) *ᵥ fun ab : ι × κ => q₁ ab.1 * q₂ ab.2)
      = (p₁ ⬝ᵥ (M *ᵥ q₁)) * (p₂ ⬝ᵥ (N *ᵥ q₂)) := by
  simp only [Matrix.dotProduct, Matrix.mulVec, Matrix.kroneckerMap_apply,
    Fintype.sum_prod_type]
  rw [Finset.sum_mul_sum]
  refine Finset.sum_congr rfl fun a _ => ?_
  have inner : ∀ b : κ, (∑ c, ∑ dd, M a c * N b dd * (q₁ c * q₂ dd))
      = (∑ c, M a c * q₁ c) * (∑ dd, N b dd * q₂ dd) := by
    intro b
    rw [Finset.sum_mul_sum]
    exact Finset.sum_congr rfl fun c _ =>
      Finset.sum_congr rfl fun dd _ => by ring
  calc ∑ b, p₁ a * p₂ b * ∑ c, ∑ dd, M a c * N b dd * (q₁ c * q₂ dd)
      = ∑ b, p₁ a * p₂ b * ((∑ c, M a c * q₁ c) * (∑ dd, N b dd * q₂ dd)) :=
        Finset.sum_congr rfl fun b _ => by rw [inner b]
    _ = ∑ b, (p₁ a * ∑ c, M a c * q₁ c) * (p₂ b * ∑ dd, N b dd * q₂ dd) :=
        Finset.sum_congr rfl fun b _ => by ring

lemma QSTerm.offDiag_mul {n : ℕ} {ι κ : Type} [Fintype ι] [DecidableEq ι]
    [Fintype κ] [DecidableEq κ] (t₁ : QSTerm n ι) (t₂ : QSTerm n κ)
    (i j : Fin n) :
    (t₁.mul t₂).offDiag i j = t₁.offDiag i j * t₂.offDiag i j := by
  show (fun ab : ι × κ => t₁.p i ab.1 * t₂.p i ab.2) ⬝ᵥ
      ((t₁.mul t₂).prop (segment j i) *ᵥ
        fun ab : ι × κ => t₁.q j ab.1 * t₂.q j ab.2) = _
  rw [QSTerm.prop_mul, kron_bilinear]
  rfl

/-- Modelled from the spec: the concrete constant term used to instantiate
the composition theorem. -/
noncomputable def tUnit : QSTerm 2 Unit :=
  ⟨fun _ _ => 1, fun _ _ => 1, fun _ => 1, fun _ => 1⟩

/-- Claim C3: for every pair of quasiseparable terms whose structured values
agree with their closed-form covariance functions (the contract of spec 4.4),
the pointwise value implied by the structured representation of their
composition is the sum of the closed forms for additive composition and the
product of the closed forms for multiplicative composition, at all index
pairs. -/
theorem composition_pointwise_values {n : ℕ} {ι κ : Type} [Fintype ι]
    [DecidableEq ι] [Fintype κ] [DecidableEq κ]
    (t₁ : QSTerm n ι) (t₂ : QSTerm n κ) (k₁ k₂ : Fin n → Fin n → ℝ)
    (h₁ : ∀ i j, t₁.cov i j = k₁ i j) (h₂ : ∀ i j, t₂.cov i j = k₂ i j)
    (i j : Fin n) :
    (t₁.add t₂).cov i j = k₁ i j + k₂ i j ∧
      (t₁.mul t₂).cov i j = k₁ i j * k₂ i j := by
  rw [← h₁ i j, ← h₂ i j]
  unfold QSTerm.cov
  by_cases hij : i = j
  · subst hij
    simp [QSTerm.add, QSTerm.mul]
  · by_cases hlt : j < i
    · simp only [if_neg hij, if_pos hlt]
      exact ⟨QSTerm.offDiag_add t₁ t₂ i j, QSTerm.offDiag_mul t₁ t₂ i j⟩
    · simp only [if_neg hij, if_neg hlt]
      exact ⟨QSTerm.offDiag_add t₁ t₂ j i, QSTerm.offDiag_mul t₁ t₂ j i⟩

/-- Witness for C3 at a concrete pair of terms and a concrete index pair. -/
theorem composition_pointwise_values_check :
    (tUnit.add tUnit).cov 0 1 = tUnit.cov 0 1 + tUnit.cov 0 1 ∧
      (tUnit.mul tUnit).cov 0 1 = tUnit.cov 0 1 * tUnit.cov 0 1 :=
  composition_pointwise_values tUnit tUnit tUnit.cov tUnit.cov
    (fun _ _ => rfl) (fun _ _ => rfl) 0 1

/-! ## Executable error-reporting pipeline (spec 3, 4.1, 4.2, 7)

Modelled from the spec: the error taxonomy and the control flow of the
solver pipeline (sortedness check at representation construction, shape
check, sequential left-to-right elimination aborting on a non-positive
pivot) are absent from src/; they are modelled here executably over ℚ so
that concrete runs can be evaluated inside proofs. -/

/-- The error taxonomy of spec 7: DomainError, NumericalError, ShapeError. -/
inductive GPError
  | domainError
  | numericalError
  | shapeError
deriving DecidableEq

/-- Strict ascending sortedness of the input coordinates (spec 3). -/
def sortedAsc : List ℚ → Bool
  | [] => true
  | [_] => true
  | x :: y :: rest => decide (x < y) && sortedAsc (y :: rest)

/-- The Schur complement after eliminating the leading position — the
running state folded left-to-right by the sequential factorization
(spec 4.2). -/
def schur (n : ℕ) (K : Matrix (Fin (n + 1)) (Fin (n + 1)) ℚ) :
    Matrix (Fin n) (Fin n) ℚ :=
  Matrix.of fun i j => K i.succ j.succ - K i.succ 0 * K 0 j.succ / K 0 0

/-- Modelled from the spec: the factorization engine proceeding strictly
left-to-right, producing the list of diagonal pivots; any computed pivot
≤ 0 aborts immediately with NumericalError and no partial result
(spec 4.2, 7). -/
def ldlPivots : (n : ℕ) → Matrix (Fin n) (Fin n) ℚ → Except GPError (List ℚ)
  | 0, _ => .ok []
  | n + 1, K =>
    if K 0 0 ≤ 0 then .error .numericalError
    else (ldlPivots n (schur n K)).map fun ds => K 0 0 :: ds

/-- Modelled from the spec: the sequential solve through the elimination —
forward sweep folded into the recursion, back-substitution on the way out
(spec 4.3); aborts with NumericalError on a non-positive pivot. -/
def gaussSolve : (n : ℕ) → Matrix (Fin n) (Fin n) ℚ → (Fin n → ℚ) →
    Except GPError (Fin n → ℚ)
  | 0, _, _ => .ok fun i => i.elim0
  | n + 1, K, b =>
    if K 0 0 ≤ 0 then .error .numericalError
    else
      (gaussSolve n (schur n K)
          (fun i => b i.succ - K i.succ 0 / K 0 0 * b 0)).map
        fun x => Fin.cons ((b 0 - ∑ j, K 0 j.succ * x j) / K 0 0) x

/-- Modelled from the spec: the full pipeline — reject unsorted inputs with
DomainError at representation construction (spec 4.1), reject mismatched
lengths with ShapeError (spec 7), assemble the covariance matrix from the
kernel and the per-point noise diagonal (spec 3), then run the sequential
factorization and solve (spec 4.2, 4.3). -/
def gpSolve (xs diag b : List ℚ) (k : ℚ → ℚ → ℚ) : Except GPError (List ℚ) :=
  if sortedAsc xs = false then .error .domainError
  else if ¬(diag.length = xs.length ∧ b.length = xs.length) then
    .error .shapeError
  else
    let K : Matrix (Fin xs.length) (Fin xs.length) ℚ :=
      Matrix.of fun i j =>
        k (xs.get i) (xs.get j) + if i = j then diag.getD i.val 0 else 0
    (gaussSolve xs.length K (fun i => b.getD i.val 0)).map List.ofFn

/-- A returned pivot list can only come from a run in which every computed
pivot was positive. -/
lemma ldlPivots_ok_pos : ∀ (n : ℕ) (K : Matrix (Fin n) (Fin n) ℚ)
    (ds : List ℚ), ldlPivots n K = .ok ds → ∀ d ∈ ds, 0 < d := by
  intro n
  induction n with
  | zero =>
      intro K ds h d hd
      simp only [ldlPivots] at h
      cases h
      simp at hd
  | succ n ih =>
      intro K ds h d hd
      simp only [ldlPivots] at h
      by_cases hpiv : K 0 0 ≤ 0
      · rw [if_pos hpiv] at h
        cases h
      · rw [if_neg hpiv] at h
        cases hrec : ldlPivots n (schur n K) with
        | error e => rw [hrec] at h; cases h
        | ok ds' =>
            rw [hrec] at h
            cases h
            rcases List.mem_cons.mp hd with hd | hd
            · exact hd ▸ lt_of_not_le hpiv
            · exact ih (schur n K) ds' hrec d hd

deriving instance DecidableEq for Except

/-- Concrete positive-definite and non-positive-definite test matrices. -/
def Kpos : Matrix (Fin 2) (Fin 2) ℚ := !![1, 0; 0, 1]

/-- A matrix whose first pivot is non-positive. -/
def Kneg : Matrix (Fin 2) (Fin 2) ℚ := !![-1, 0; 0, 1]

/-- Claim C5: the factorization engine never returns a pivot list containing
a non-positive pivot — a run in which any pivot comes out ≤ 0 surfaces
NumericalError with no partial result; in particular a non-positive leading
pivot immediately yields the error. -/
theorem nonpositive_pivot_surfaces_error (n : ℕ)
    (K : Matrix (Fin (n + 1)) (Fin (n + 1)) ℚ) :
    (∀ ds, ldlPivots (n + 1) K = .ok ds → ∀ d ∈ ds, 0 < d) ∧
      (K 0 0 ≤ 0 → ldlPivots (n + 1) K = .error .numericalError) := by
  refine ⟨fun ds h => ldlPivots_ok_pos (n + 1) K ds h, fun hpiv => ?_⟩
  simp only [ldlPivots]
  rw [if_pos hpiv]

/-- Witness for C5: a run that succeeds has positive pivots, and a concrete
matrix with non-positive leading entry surfaces NumericalError. -/
theorem nonpositive_pivot_surfaces_error_check :
    (∀ d ∈ [(1 : ℚ), 1], 0 < d) ∧
      ldlPivots 2 Kneg = .error .numericalError :=
  ⟨(nonpositive_pivot_surfaces_error 1 Kpos).1 [1, 1] (by
      norm_num [ldlPivots, schur, Kpos, Matrix.of_apply, Fin.succ_zero_eq_one,
        Except.map]),
    (nonpositive_pivot_surfaces_error 1 Kneg).2 (by decide)⟩

/-- Claim C6: for every input coordinate sequence that is not strictly
ascending, the pipeline rejects with DomainError regardless of the kernel,
noise diagonal or right-hand side — in particular before any factorization
or solve work can surface a NumericalError or ShapeError. -/
theorem unsorted_inputs_domain_error (xs diag b : List ℚ) (k : ℚ → ℚ → ℚ)
    (h : sortedAsc xs = false) :
    gpSolve xs diag b k = .error .domainError := by
  simp [gpSolve, h]

/-- Witness for C6 at a concrete unsorted input sequence. -/
theorem unsorted_inputs_domain_error_check :
    gpSolve [1, 0] [5] [7] (fun _ _ => 0) = .error .domainError :=
  unsorted_inputs_domain_error [1, 0] [5] [7] (fun _ _ => 0) (by decide)

/-- The zero kernel function, used as a concrete pipeline input. -/
def kzero : ℚ → ℚ → ℚ := fun _ _ => 0

/-- Claim C7: the pipeline is a deterministic function of its inputs — two
builds from identical kernel parameters, inputs, noise diagonal and
right-hand side produce identical solve results; there is no randomness in
the model. -/
theorem pipeline_deterministic (xs₁ xs₂ diag₁ diag₂ b₁ b₂ : List ℚ)
    (k₁ k₂ : ℚ → ℚ → ℚ) (hx : xs₁ = xs₂) (hdg : diag₁ = diag₂)
    (hb : b₁ = b₂) (hk : k₁ = k₂) :
    gpSolve xs₁ diag₁ b₁ k₁ = gpSolve xs₂ diag₂ b₂ k₂ := by
  subst hx; subst hdg; subst hb; subst hk; rfl

/-- Witness for C7: two identical concrete builds coincide. -/
theorem pipeline_deterministic_check :
    gpSolve [0, 1] [1, 1] [1, 2] kzero = gpSolve [0, 1] [1, 1] [1, 2] kzero :=
  pipeline_deterministic [0, 1] [0, 1] [1, 1] [1, 1] [1, 2] [1, 2] kzero kzero
    rfl rfl rfl rfl

/-! ## Great-circle distance (src/docs/tutorials/geometry.ipynb)

Embedding of GreatCircleDistance.distance: reject inputs whose shape is not
exactly (3,) with a ValueError, otherwise return
arctan2(norm(cross(X1, X2)), X1ᵀ·X2). -/

/-- A 3-vector of reals (a shape-(3,) array). -/
structure Vec3 where
  x : ℝ
  y : ℝ
  z : ℝ

/-- The dot product X1ᵀ·X2 of the source. -/
def dot3 (a b : Vec3) : ℝ := a.x * b.x + a.y * b.y + a.z * b.z

/-- The cross product jnp.cross of the source. -/
def cross3 (a b : Vec3) : Vec3 :=
  ⟨a.y * b.z - a.z * b.y, a.z * b.x - a.x * b.z, a.x * b.y - a.y * b.x⟩

/-- The Euclidean norm jnp.linalg.norm of the source. -/
noncomputable def norm3 (a : Vec3) : ℝ := Real.sqrt (dot3 a a)

/-- The two-argument arctangent jnp.arctan2 of the source, following the
numpy quadrant convention over the reals (signed zeros do not exist in ℝ). -/
noncomputable def arctan2 (y x : ℝ) : ℝ :=
  if 0 < x then Real.arctan (y / x)
  else if x < 0 then
    (if 0 ≤ y then Real.arctan (y / x) + Real.pi
     else Real.arctan (y / x) - Real.pi)
  else
    (if 0 < y then Real.pi / 2 else if y < 0 then -(Real.pi / 2) else 0)

/-- The great-circle distance value on shape-correct inputs:
arctan2 of the cross-product norm against the dot product (the source's
return expression). -/
noncomputable def gcDist (a b : Vec3) : ℝ :=
  arctan2 (norm3 (cross3 a b)) (dot3 a b)

/-- Embedding of the source's GreatCircleDistance.distance: inputs are
vectors of arbitrary length; any shape other than (3,) raises ValueError
(modelled as the spec's DomainError), otherwise the distance value is
returned. -/
noncomputable def greatCircleDistance (X1 X2 : List ℝ) : Except GPError ℝ :=
  if X1.length = 3 ∧ X2.length = 3 then
    .ok (gcDist ⟨X1.getD 0 0, X1.getD 1 0, X1.getD 2 0⟩
      ⟨X2.getD 0 0, X2.getD 1 0, X2.getD 2 0⟩)
  else .error .domainError

/-- Counterexample for C8 as stated: a non-unit 3-vector of correct shape is
accepted — the call returns the value 0 instead of failing. -/
theorem great_circle_nonunit_counterexample :
    greatCircleDistance [2, 0, 0] [1, 0, 0] = .ok 0 ∧
      greatCircleDistance [2, 0, 0] [1, 0, 0] ≠ .error .domainError := by
  have hok : greatCircleDistance [2, 0, 0] [1, 0, 0] = .ok 0 := by
    unfold greatCircleDistance
    rw [if_pos ⟨rfl, rfl⟩]
    have hval : gcDist ⟨2, 0, 0⟩ ⟨1, 0, 0⟩ = 0 := by
      unfold gcDist
      have hc : cross3 ⟨2, 0, 0⟩ ⟨1, 0, 0⟩ = ⟨0, 0, 0⟩ := by
        unfold cross3
        simp only [Vec3.mk.injEq]
        norm_num
      have hn : norm3 ⟨0, 0, 0⟩ = 0 := by
        unfold norm3 dot3
        norm_num
      have hd : dot3 ⟨2, 0, 0⟩ ⟨1, 0, 0⟩ = 2 := by
        unfold dot3
        norm_num
      rw [hc, hn, hd]
      unfold arctan2
      rw [if_pos (by norm_num : (0:ℝ) < 2)]
      norm_num [Real.arctan_zero]
    exact congrArg Except.ok hval
  exact ⟨hok, by rw [hok]; exact fun h => Except.noConfusion h⟩

/-- Claim C8 (amended): the call fails with the error exactly when a shape
is malformed — it errors for every input pair whose lengths are not both 3,
and returns a value whenever both lengths are 3 (unit length is not
validated). -/
theorem great_circle_shape_check (X1 X2 : List ℝ) :
    (X1.length ≠ 3 ∨ X2.length ≠ 3 →
      greatCircleDistance X1 X2 = .error .domainError) ∧
      (X1.length = 3 → X2.length = 3 →
        ∃ v, greatCircleDistance X1 X2 = .ok v) := by
  constructor
  · intro h
    unfold greatCircleDistance
    rw [if_neg]
    intro hc
    rcases h with h | h
    · exact h hc.1
    · exact h hc.2
  · intro h1 h2
    unfold greatCircleDistance
    rw [if_pos ⟨h1, h2⟩]
    exact ⟨_, rfl⟩

/-- Witness for C8 (amended) at concrete malformed and well-formed inputs. -/
theorem great_circle_shape_check_witness :
    greatCircleDistance [1, 2] [1, 2, 3] = .error .domainError ∧
      ∃ v, greatCircleDistance [1, 0, 0] [0, 1, 0] = .ok v :=
  ⟨(great_circle_shape_check [1, 2] [1, 2, 3]).1 (Or.inl (by decide)),
    (great_circle_shape_check [1, 0, 0] [0, 1, 0]).2 rfl rfl⟩

/-! ### Symmetry and range of the great-circle distance (C10) -/

lemma arctan_nonneg_of {t : ℝ} (h : 0 ≤ t) : 0 ≤ Real.arctan t := by
  have hm := Real.arctan_strictMono.monotone h
  rwa [Real.arctan_zero] at hm

lemma arctan_nonpos_of {t : ℝ} (h : t ≤ 0) : Real.arctan t ≤ 0 := by
  have hm := Real.arctan_strictMono.monotone h
  rwa [Real.arctan_zero] at hm

/-- For nonnegative first argument, arctan2 lands in [0, π]. -/
lemma arctan2_mem {y : ℝ} (x : ℝ) (hy : 0 ≤ y) :
    0 ≤ arctan2 y x ∧ arctan2 y x ≤ Real.pi := by
  unfold arctan2
  split_ifs with hx hx' hy' hy''
  · constructor
    · exact arctan_nonneg_of (div_nonneg hy hx.le)
    · have h1 := Real.arctan_lt_pi_div_two (y / x)
      have h2 := Real.pi_pos
      linarith
  · constructor
    · have h1 := Real.neg_pi_div_two_lt_arctan (y / x)
      have h2 := Real.pi_pos
      linarith
    · have ha : Real.arctan (y / x) ≤ 0 :=
        arctan_nonpos_of (div_nonpos_of_nonneg_of_nonpos hy hx'.le)
      linarith
  · have h2 := Real.pi_pos
    constructor <;> linarith
  · exact absurd hy'' (not_lt.mpr hy)
  · exact ⟨le_refl 0, Real.pi_pos.le⟩

lemma norm3_nonneg (a : Vec3) : 0 ≤ norm3 a := Real.sqrt_nonneg _

lemma gcDist_symm_aux (a b : Vec3) : gcDist a b = gcDist b a := by
  unfold gcDist
  have hdot : dot3 a b = dot3 b a := by unfold dot3; ring
  have hnorm : norm3 (cross3 a b) = norm3 (cross3 b a) := by
    unfold norm3
    congr 1
    unfold dot3 cross3
    ring
  rw [hdot, hnorm]

/-- Claim C10: for unit 3-vectors, the great-circle distance is symmetric
and its value lies in [0, π] (arctan2 of a nonnegative cross-product norm
against the dot product). -/
theorem great_circle_symm_range (v₁ v₂ : Vec3)
    (h₁ : dot3 v₁ v₁ = 1) (h₂ : dot3 v₂ v₂ = 1) :
    gcDist v₁ v₂ = gcDist v₂ v₁ ∧
      0 ≤ gcDist v₁ v₂ ∧ gcDist v₁ v₂ ≤ Real.pi := by
  refine ⟨gcDist_symm_aux v₁ v₂, ?_⟩
  unfold gcDist
  exact arctan2_mem (dot3 v₁ v₂) (norm3_nonneg (cross3 v₁ v₂))

/-- Witness for C10 at two concrete orthogonal unit vectors. -/
theorem great_circle_symm_range_check :
    gcDist ⟨1, 0, 0⟩ ⟨0, 1, 0⟩ = gcDist ⟨0, 1, 0⟩ ⟨1, 0, 0⟩ ∧
      0 ≤ gcDist ⟨1, 0, 0⟩ ⟨0, 1, 0⟩ ∧ gcDist ⟨1, 0, 0⟩ ⟨0, 1, 0⟩ ≤ Real.pi :=
  great_circle_symm_range ⟨1, 0, 0⟩ ⟨0, 1, 0⟩ (by unfold dot3; norm_num)
    (by unfold dot3; norm_num)

/-! ## Matérn-3/2 scaling equivalence (src/docs/tutorials/multivariate.ipynb)

Modelled from the spec: the Matérn-3/2 kernel itself lives in the external
library (spec 4.4 describes it only as an amplitude/scale-parameterized
term); it is modelled here with the standard closed form, with the
length-scale dividing the Euclidean distance, which is the relationship
the notebook asserts. -/

/-- The squared Euclidean distance between two m-dimensional inputs. -/
def sqDist {m : ℕ} (a b : Fin m → ℝ) : ℝ := ∑ i, (a i - b i)^2

lemma sqDist_nonneg {m : ℕ} (a b : Fin m → ℝ) : 0 ≤ sqDist a b :=
  Finset.sum_nonneg fun i _ => sq_nonneg _

/-- Modelled from the spec: the Matérn-3/2 kernel with length-scale
parameter (spec 4.4): with r the Euclidean distance divided by the scale,
the value is (1 + √3·r) · exp(−√3·r). -/
noncomputable def Matern32 {m : ℕ} (scale : ℝ) (a b : Fin m → ℝ) : ℝ :=
  (1 + Real.sqrt 3 * (Real.sqrt (sqDist a b) / scale)) *
    Real.exp (-(Real.sqrt 3 * (Real.sqrt (sqDist a b) / scale)))

/-- Claim C9: for every positive scale, the Matérn-3/2 kernel with that
scale equals the unscaled kernel evaluated on the inputs pre-divided by the
scale — parameterised scaling is equivalent to scaling the coordinates. -/
theorem matern32_scale_equiv {m : ℕ} (scale : ℝ) (hs : 0 < scale)
    (a b : Fin m → ℝ) :
    Matern32 scale a b =
      Matern32 1 (fun i => a i / scale) (fun i => b i / scale) := by
  have h1 : sqDist (fun i => a i / scale) (fun i => b i / scale)
      = sqDist a b / scale^2 := by
    unfold sqDist
    rw [Finset.sum_div]
    refine Finset.sum_congr rfl fun i _ => ?_
    rw [div_sub_div_same, div_pow]
  have key : Real.sqrt (sqDist (fun i => a i / scale) (fun i => b i / scale))
      = Real.sqrt (sqDist a b) / scale := by
    rw [h1, Real.sqrt_div (sqDist_nonneg a b), Real.sqrt_sq hs.le]
  unfold Matern32
  rw [key]
  rw [div_one]

/-- Witness for C9 at a concrete scale and concrete one-dimensional
inputs. -/
theorem matern32_scale_equiv_check :
    Matern32 2 (fun _ : Fin 1 => (0:ℝ)) (fun _ : Fin 1 => (1:ℝ)) =
      Matern32 1 (fun i : Fin 1 => (fun _ : Fin 1 => (0:ℝ)) i / 2)
        (fun i : Fin 1 => (fun _ : Fin 1 => (1:ℝ)) i / 2) :=
  matern32_scale_equiv 2 (by norm_num) _ _

end TinyGP
